import Mathlib

set_option allowUnsafeReducibility true
attribute [local semireducible] Rat.add Rat.mul Rat.sub Rat.div Rat.inv Rat.ofScientific

deriving instance DecidableEq for Except

/-!
# Verification of the `run_etl.py` cleaning-and-aggregation core

A shallow embedding of the core pipeline of `run_etl.py`:
`normalize_columns`, `clean_and_enrich` and `compute_aggregates`, together
with the configuration defaults they read (`DEFAULT_CONFIG["col_map"]`,
`DEFAULT_CONFIG["category_map"]`).

Modelling conventions:
* A pandas `DataFrame` is a `Table`: a list of column names plus row-major
  cell data.  Cells are a tagged variant `Value`
  (string / rational number / date / time / missing), mirroring the
  dynamically typed cells of the source; `missing` stands for
  `NaN`/`NA`/`NaT`.
* Machine floats of the source are modelled as `ℚ`; every numeric literal
  exercised here is exactly representable either way.
* Library primitives used by the source (pandas parsers, `str.strip`, …)
  are modelled by small total Lean functions, documented at each site;
  parse failure is `missing` (pandas `errors="coerce"`).
* Code paths that raise in pandas (e.g. `sort_values` on an absent column)
  are modelled in `Except String`, so that "never raises" claims are
  statable.
-/

namespace RunEtl

/-- A cell value of the dynamically typed table: string, rational number,
calendar date (year, month, day), clock time (hour, minute, second) or the
missing sentinel (`NaN` / `pd.NA` / `NaT`). -/
inductive Value where
  | str : String → Value
  | num : ℚ → Value
  | date : ℕ → ℕ → ℕ → Value
  | time : ℕ → ℕ → ℕ → Value
  | missing : Value
deriving DecidableEq, Repr

/-- A row of the table: the cell values, positionally aligned with the
column-name list of the enclosing table. -/
abbrev Row := List Value

/-- A pandas `DataFrame`: ordered column names plus row-major cells.
Duplicate column labels are representable (pandas permits them after a
rename), though the pipeline only ever produces well-formed tables. -/
structure Table where
  cols : List String
  rows : List Row
deriving DecidableEq, Repr

/-- Well-formedness: every row has exactly one cell per column. -/
def Table.WF (t : Table) : Prop := ∀ r ∈ t.rows, r.length = t.cols.length

instance (t : Table) : Decidable t.WF :=
  inferInstanceAs (Decidable (∀ r ∈ t.rows, r.length = t.cols.length))

/-- The empty `pd.DataFrame()`: no columns, no rows. -/
def Table.empty : Table := ⟨[], []⟩

/-! ## Models of the Python string primitives -/

/-- Strip leading and trailing whitespace from a character list
(model of Python `str.strip()`). -/
def stripChars (l : List Char) : List Char :=
  ((l.dropWhile Char.isWhitespace).reverse.dropWhile Char.isWhitespace).reverse

/-- Model of Python `str.strip()`. -/
def pyStrip (s : String) : String := String.mk (stripChars s.data)

/-- Model of Python `str.lower()` (ASCII case folding, which covers every
name appearing in the configuration). -/
def pyLower (s : String) : String := String.mk (s.data.map Char.toLower)

/-- Model of Python `str.replace(" ", "_")`: the pattern is a single
character, so the replacement is characterwise. -/
def pyUnderscore (s : String) : String :=
  String.mk (s.data.map (fun c => if c = ' ' then '_' else c))

/-- Keep only the characters the source's regex `[^0-9.\-]` retains
(model of `str.replace(r"[^0-9.\-]", "", regex=True)`). -/
def stripNonNumeric (l : List Char) : List Char :=
  l.filter (fun c => c.isDigit || c = '.' || c = '-')

/-- Value of a (non-empty) digit string. -/
def digitsVal (l : List Char) : ℕ :=
  l.foldl (fun a c => 10 * a + (c.toNat - 48)) 0

/-- Model of `pd.to_numeric` / Python `float()` on an already
regex-stripped string: an optional leading minus, digits, an optional
single decimal point; at least one digit overall.  Anything else fails. -/
def parseRat (l : List Char) : Option ℚ :=
  let (neg, l') := match l with
    | '-' :: t => (true, t)
    | _ => (false, l)
  let ip := l'.takeWhile (fun c => c ≠ '.')
  let rest := l'.dropWhile (fun c => c ≠ '.')
  let ok := fun (i f : List Char) =>
    i.all Char.isDigit && f.all Char.isDigit && !(i.isEmpty && f.isEmpty)
  let mk := fun (i f : List Char) =>
    let q : ℚ := (digitsVal i : ℚ) + (digitsVal f : ℚ) / ((10 : ℚ) ^ f.length)
    some (if neg then -q else q)
  match rest with
  | [] => if ok ip [] then mk ip [] else none
  | _ :: frac => if frac.all (fun c => c ≠ '.') && ok ip frac then mk ip frac else none

/-- Split a character list at every occurrence of separator `c`. -/
def splitChar (c : Char) : List Char → List (List Char)
  | [] => [[]]
  | x :: xs =>
    let r := splitChar c xs
    if x = c then [] :: r
    else match r with
      | [] => [[x]]
      | h :: t => (x :: h) :: t

/-! ## Models of the pandas parsing primitives -/

/-- Plausible calendar bounds used when resolving day-first ambiguity. -/
def validDM (d m : ℕ) : Bool := 1 ≤ d && d ≤ 31 && 1 ≤ m && m ≤ 12

/-- Model of `pd.to_datetime(s, errors="coerce", dayfirst=True)` on the
formats the pipeline exercises: `YYYY-MM-DD`, and `A/B/YYYY` where `A/B`
is read day-first and falls back to month-first when the day-first
reading is not a valid calendar pair; anything else coerces to missing. -/
def parseDateStr (s : String) : Value :=
  match splitChar '-' s.data with
  | [a, b, c] =>
    if a.all Char.isDigit && b.all Char.isDigit && c.all Char.isDigit &&
        a.length = 4 && validDM (digitsVal c) (digitsVal b) then
      .date (digitsVal a) (digitsVal b) (digitsVal c)
    else .missing
  | _ =>
    match splitChar '/' s.data with
    | [a, b, c] =>
      if a.all Char.isDigit && b.all Char.isDigit && c.all Char.isDigit && c.length = 4 then
        if validDM (digitsVal a) (digitsVal b) then
          .date (digitsVal c) (digitsVal b) (digitsVal a)
        else if validDM (digitsVal b) (digitsVal a) then
          .date (digitsVal c) (digitsVal a) (digitsVal b)
        else .missing
      else .missing
    | _ => .missing

/-- Cellwise model of the `date` coercion at line 115: strings are parsed,
dates pass through, everything else coerces to missing. -/
def parseDateV : Value → Value
  | .str s => parseDateStr s
  | .date y m d => .date y m d
  | _ => .missing

/-- Model of `pd.to_datetime(s, format="%H:%M:%S", errors="coerce")` on a
single cell: exactly `H:M:S` with in-range numeric fields, else missing. -/
def parseTimeStrict (s : String) : Value :=
  match splitChar ':' s.data with
  | [h, m, sec] =>
    if h.all Char.isDigit && m.all Char.isDigit && sec.all Char.isDigit &&
        !h.isEmpty && !m.isEmpty && !sec.isEmpty &&
        digitsVal h ≤ 23 && digitsVal m ≤ 59 && digitsVal sec ≤ 59 then
      .time (digitsVal h) (digitsVal m) (digitsVal sec)
    else .missing
  | _ => .missing

/-- Cellwise strict time coercion (line 119): strings are parsed with the
`%H:%M:%S` pattern, times pass through, everything else coerces missing. -/
def parseTimeV : Value → Value
  | .str s => parseTimeStrict s
  | .time h m s => .time h m s
  | _ => .missing

/-- Modelled from the spec: the "general-purpose tolerant time parsing"
fallback (`pd.to_datetime` without a format, line 121).  It additionally
accepts `H:M`, which the strict `%H:%M:%S` pattern rejects. -/
def parseTimeTolerant (s : String) : Value :=
  match splitChar ':' s.data with
  | [h, m] =>
    if h.all Char.isDigit && m.all Char.isDigit && !h.isEmpty && !m.isEmpty &&
        digitsVal h ≤ 23 && digitsVal m ≤ 59 then
      .time (digitsVal h) (digitsVal m) 0
    else .missing
  | _ => parseTimeStrict s

/-- Cellwise numeric coercion for `qty` / `unit_price` (line 125):
`pd.to_numeric(df[col].astype(str).str.replace(r"[^0-9.\-]", "", regex=True),
errors="coerce")`.  Strings are regex-stripped then parsed; numbers
round-trip through their decimal representation unchanged; missing stays
missing; date/time junk coerces to missing. -/
def parseNumV : Value → Value
  | .str s =>
    match parseRat (stripNonNumeric s.data) with
    | some q => .num q
    | none => .missing
  | .num q => .num q
  | _ => .missing

/-- Cellwise model of lines 111-112
(`astype(str).str.strip().replace({"nan": pd.NA, "None": pd.NA})`), the
object-column pass: strings are stripped and the literal tokens `nan` /
`None` collapse to missing; non-string cells are untouched. -/
def cleanCell : Value → Value
  | .str s =>
    let s' := pyStrip s
    if s' = "nan" ∨ s' = "None" then .missing else .str s'
  | v => v

/-! ## Table primitives -/

/-- Index of the first column named `c` (pandas label lookup). -/
def colIdx? : List String → String → Option ℕ
  | [], _ => none
  | c' :: rest, c => if c' = c then some 0 else (colIdx? rest c).map (· + 1)

/-- The cell of row `r` in the column named `c` (missing when the column
is absent or the row is short). -/
def getCell (cols : List String) (r : Row) (c : String) : Value :=
  match colIdx? cols c with
  | some i => r.getD i .missing
  | none => .missing

/-- The column vector of `c` (empty when the column is absent). -/
def getColVals (t : Table) (c : String) : List Value :=
  match colIdx? t.cols c with
  | some i => t.rows.map (fun r => r.getD i .missing)
  | none => []

/-- Apply `f` to the cells of every column named `c` in one row. -/
def zipApply (cols : List String) (c : String) (f : Value → Value) (r : Row) : Row :=
  (cols.zip r).map (fun p => if p.1 = c then f p.2 else p.2)

/-- `df[c] = g(df[c])` for a column already present: cellwise update. -/
def Table.mapCol (t : Table) (c : String) (f : Value → Value) : Table :=
  ⟨t.cols, t.rows.map (zipApply t.cols c f)⟩

/-- Apply `f` to every cell (the object-column pass of lines 111-112,
where `f` is the identity on the cells the pass does not touch). -/
def Table.mapCells (t : Table) (f : Value → Value) : Table :=
  ⟨t.cols, t.rows.map (List.map f)⟩

/-- `df[c] = <series computed from the row>`: overwrite the column when
present, append it otherwise (pandas column assignment). -/
def Table.setCol (t : Table) (c : String) (f : Row → Value) : Table :=
  if c ∈ t.cols then
    ⟨t.cols, t.rows.map (fun r => (t.cols.zip r).map (fun p => if p.1 = c then f r else p.2))⟩
  else ⟨t.cols ++ [c], t.rows.map (fun r => r ++ [f r])⟩

/-- `df.rename(columns=m)`: names not in `m` are kept. -/
def renameCols (m : List (String × String)) (t : Table) : Table :=
  ⟨t.cols.map (fun c => match m.lookup c with | some v => v | none => c), t.rows⟩

/-- Keep the elements not already seen, in order (`seen` accumulates the
values met so far). -/
def dedupAux {α : Type} [DecidableEq α] : List α → List α → List α
  | _, [] => []
  | seen, r :: rs =>
    if r ∈ seen then dedupAux seen rs else r :: dedupAux (r :: seen) rs

/-- `df.drop_duplicates()`: remove exact full-row duplicates, keeping the
first occurrence (pandas treats `NaN` cells as equal here, as does
`Value.missing`). -/
def Table.drop_duplicates (t : Table) : Table := ⟨t.cols, dedupAux [] t.rows⟩

/-! ## An order on cell values

pandas compares the homogeneous key/measure columns of this pipeline
(strings, dates, numbers) with the underlying total order of the type;
`vle` packages those orders into one total preorder on `Value`, ranking
distinct variants apart (only same-variant comparisons ever occur in the
pipeline's sorts). -/

/-- Variant tag used to separate the per-type orders. -/
def Value.rank : Value → ℕ
  | .missing => 0
  | .num _ => 1
  | .str _ => 2
  | .date _ _ _ => 3
  | .time _ _ _ => 4

/-- Numeric sort key of the numeric-like variants. -/
def Value.qkey : Value → ℚ
  | .num q => q
  | .date y m d => ((y * 10000 + m * 100 + d : ℕ) : ℚ)
  | .time h m s => ((h * 10000 + m * 100 + s : ℕ) : ℚ)
  | _ => 0

/-- String sort key of the string variant. -/
def Value.skey : Value → String
  | .str s => s
  | _ => ""

/-- Lexicographic comparison of character lists by code point (the string
order Python and pandas use). -/
def strLeB : List Char → List Char → Bool
  | [], _ => true
  | _ :: _, [] => false
  | x :: xs, y :: ys =>
    if x.toNat < y.toNat then true
    else if y.toNat < x.toNat then false
    else strLeB xs ys

/-- Total preorder on cell values: by variant rank, then by the variant's
own order (lexicographic for strings, numeric otherwise). -/
def vle (a b : Value) : Bool :=
  if a.rank < b.rank then true
  else if b.rank < a.rank then false
  else if a.rank = 2 then strLeB a.skey.data b.skey.data
  else decide (a.qkey ≤ b.qkey)

/-! ## `normalize_columns` (lines 93-105) -/

/-- Python `dict` lookup for a dict built from an association list:
a later binding of the same key overwrites an earlier one. -/
def dictLookup (m : List (String × String)) (k : String) : Option String :=
  m.reverse.lookup k

/-- The new name of one raw column (lines 96-104): trim, then exact match
against the mapping's keys, then case-insensitive match, then the
lower-case / underscore fallback. -/
def canonName (cm : List (String × String)) (c0 : String) : String :=
  let c := pyStrip c0
  match dictLookup cm c with
  | some v => v
  | none =>
    match dictLookup (cm.map (fun p => (pyLower p.1, p.2))) (pyLower c) with
    | some v => v
    | none => pyUnderscore (pyLower c)

/-- `normalize_columns` (lines 93-105): rename every column, keep the
cells. -/
def normalize_columns (cm : List (String × String)) (t : Table) : Table :=
  ⟨t.cols.map (canonName cm), t.rows⟩

/-! ## `clean_and_enrich` (lines 108-142) -/

/-- `fillna("UNKNOWN_PRODUCT")` on one cell (line 136). -/
def fillUnknown : Value → Value
  | .missing => .str "UNKNOWN_PRODUCT"
  | v => v

/-- `df["qty"] * df["unit_price"]` on one row (line 128): numeric product,
a missing operand propagates to a missing result. -/
def vMul : Value → Value → Value
  | .num a, .num b => .num (a * b)
  | _, _ => .missing

/-- `df["date"].dt.date` on one cell (line 131): the calendar date, or
missing on `NaT`. -/
def dayOf : Value → Value
  | .date y m d => .date y m d
  | _ => .missing

/-- Zero-padded two-digit numeral. -/
def pad2 (n : ℕ) : String := if n < 10 then "0" ++ toString n else toString n

/-- Zero-padded four-digit numeral. -/
def pad4 (n : ℕ) : String :=
  if n < 10 then "000" ++ toString n
  else if n < 100 then "00" ++ toString n
  else if n < 1000 then "0" ++ toString n
  else toString n

/-- `df["date"].dt.to_period("M").astype(str)` on one cell (line 132):
the `YYYY-MM` bucket, and the literal string `"NaT"` for a missing date
(`astype(str)` stringifies the NaT period). -/
def monthOf : Value → Value
  | .date y m _ => .str (pad4 y ++ "-" ++ pad2 m)
  | _ => .str "NaT"

/-- Zeller's congruence: 0 = Saturday. -/
def zeller (y m d : ℕ) : ℕ :=
  let y' := if m < 3 then y - 1 else y
  let m' := if m < 3 then m + 12 else m
  let k := y' % 100
  let j := y' / 100
  (d + 13 * (m' + 1) / 5 + k + k / 4 + j / 4 + 5 * j) % 7

/-- `df["date"].dt.day_name()` on one cell (line 133). -/
def weekdayOf : Value → Value
  | .date y m d =>
    .str (match zeller y m d with
      | 0 => "Saturday"
      | 1 => "Sunday"
      | 2 => "Monday"
      | 3 => "Tuesday"
      | 4 => "Wednesday"
      | 5 => "Thursday"
      | _ => "Friday")
  | _ => .missing

/-- `df["category"].map(CATEGORY_MAP).fillna(df["category"])` on one cell
(line 141): mapped values are replaced, everything else (including
missing) passes through. -/
def catRemap (catMap : List (String × String)) : Value → Value
  | .str s =>
    match dictLookup catMap s with
    | some v => .str v
    | none => .str s
  | v => v

/-- Lines 114-125: `if col in df.columns: df[col] = <cellwise coercion>`. -/
def stepMapCol (c : String) (f : Value → Value) (t : Table) : Table :=
  if c ∈ t.cols then t.mapCol c f else t

/-- Lines 127-128: the `sale_amt` derivation, guarded on both operands. -/
def stepSale (t : Table) : Table :=
  if "qty" ∈ t.cols ∧ "unit_price" ∈ t.cols then
    t.setCol "sale_amt" (fun r => vMul (getCell t.cols r "qty") (getCell t.cols r "unit_price"))
  else t

/-- Lines 130-133: one derived calendar column, guarded on `date`. -/
def stepDateDerived (c : String) (f : Value → Value) (t : Table) : Table :=
  if "date" ∈ t.cols then t.setCol c (fun r => f (getCell t.cols r "date")) else t

/-- Lines 135-138: the `product` column synthesis/fill. -/
def stepProduct (t : Table) : Table :=
  if "product" ∈ t.cols then t.mapCol "product" fillUnknown
  else if "product_detail" ∈ t.cols then
    t.setCol "product" (fun r => getCell t.cols r "product_detail")
  else if "product_id" ∈ t.cols then
    t.setCol "product" (fun r => getCell t.cols r "product_id")
  else t.setCol "product" (fun _ => .str "UNKNOWN_PRODUCT")

/-- Lines 140-141: the category remap, guarded on the column and on a
non-empty `CATEGORY_MAP`. -/
def stepCategory (catMap : List (String × String)) (t : Table) : Table :=
  if "category" ∈ t.cols ∧ catMap ≠ [] then t.mapCol "category" (catRemap catMap) else t

/-- State of the frame after lines 111-112 (object-column cleaning). -/
def coreT1 (t : Table) : Table := t.mapCells cleanCell

/-- After line 115 (`date` coercion). -/
def coreT2 (t : Table) : Table := stepMapCol "date" parseDateV (coreT1 t)

/-- After lines 117-121 (`time` coercion). -/
def coreT3 (t : Table) : Table := stepMapCol "time" parseTimeV (coreT2 t)

/-- After line 125 for `qty`. -/
def coreT4 (t : Table) : Table := stepMapCol "qty" parseNumV (coreT3 t)

/-- After line 125 for `unit_price`. -/
def coreT5 (t : Table) : Table := stepMapCol "unit_price" parseNumV (coreT4 t)

/-- After lines 127-128 (`sale_amt`). -/
def coreT6 (t : Table) : Table := stepSale (coreT5 t)

/-- After line 131 (`day`). -/
def coreT7 (t : Table) : Table := stepDateDerived "day" dayOf (coreT6 t)

/-- After line 132 (`month`). -/
def coreT8 (t : Table) : Table := stepDateDerived "month" monthOf (coreT7 t)

/-- After line 133 (`weekday`). -/
def coreT9 (t : Table) : Table := stepDateDerived "weekday" weekdayOf (coreT8 t)

/-- After lines 135-138 (`product`). -/
def coreT10 (t : Table) : Table := stepProduct (coreT9 t)

/-- The body of `clean_and_enrich` before the final
`drop_duplicates()` (lines 109-141), one stage per source statement. -/
def cleanCore (catMap : List (String × String)) (t : Table) : Table :=
  stepCategory catMap (coreT10 t)

/-- `clean_and_enrich` (lines 108-142): the cleaning/enrichment body
followed by `drop_duplicates()`. -/
def clean_and_enrich (catMap : List (String × String)) (t : Table) : Table :=
  (cleanCore catMap t).drop_duplicates

/-! ## `compute_aggregates` (lines 146-191) -/

/-- Numeric content of a cell. -/
def Value.num? : Value → Option ℚ
  | .num q => some q
  | _ => none

/-- pandas `Series.sum()` on a numeric column: missing cells are skipped,
an empty or all-missing column sums to 0. -/
def sumNums (l : List Value) : ℚ := (l.filterMap Value.num?).sum

/-- `float(df[c].sum())`. -/
def colSum (t : Table) (c : String) : ℚ := sumNums (getColVals t c)

/-- Python `int()` on a float: truncation toward zero. -/
def truncQ (q : ℚ) : ℤ := if 0 ≤ q then ⌊q⌋ else ⌈q⌉

/-- pandas `Series.nunique()`: distinct non-missing values. -/
def nunique (l : List Value) : ℕ :=
  (dedupAux [] (l.filter (fun v => v ≠ .missing))).length

/-- The distinct non-missing key values, ascending (pandas `groupby`
drops missing keys and sorts the groups). -/
def keysOf (vals : List Value) : List Value :=
  List.insertionSort (fun a b => vle a b = true)
    (dedupAux [] (vals.filter (fun v => v ≠ .missing)))

/-- `safe_group` (lines 147-151):
`df.groupby(key).agg({a: "sum" for a in aggs}).reset_index()` under a
`try`, with `pd.DataFrame()` on failure — the grouping raises exactly
when the key column or a summed column is absent. -/
def safe_group (t : Table) (key : String) (aggs : List String) : Table :=
  if key ∈ t.cols ∧ ∀ a ∈ aggs, a ∈ t.cols then
    let kv := getColVals t key
    ⟨key :: aggs,
      (keysOf kv).map (fun k =>
        k :: aggs.map (fun a =>
          .num (sumNums (((kv.zip (getColVals t a)).filter (fun p => p.1 = k)).map Prod.snd))))⟩
  else Table.empty

/-- Row comparison on the cell at index `i` (descending when `desc`). -/
def rowLeB (i : ℕ) (desc : Bool) (r1 r2 : Row) : Bool :=
  if desc then vle (r2.getD i .missing) (r1.getD i .missing)
  else vle (r1.getD i .missing) (r2.getD i .missing)

/-- `df.sort_values(c, ascending=…)`: raises `KeyError(c)` when `c` is
not a column (in particular on the empty fallback frame), otherwise a
stable sort on that column. -/
def sort_values (t : Table) (c : String) (desc : Bool) : Except String Table :=
  match colIdx? t.cols c with
  | none => .error c
  | some i => .ok ⟨t.cols, List.insertionSort (fun r1 r2 => rowLeB i desc r1 r2 = true) t.rows⟩

/-- The six scalar KPIs (lines 178-185). -/
structure Kpis where
  total_sales : ℚ
  total_transactions : ℕ
  avg_ticket : ℚ
  unique_products : ℕ
  top_product : Option Value
  total_units : ℤ
deriving DecidableEq, Repr

/-- The full return value of `compute_aggregates` (lines 177-191). -/
structure Aggregates where
  kpis : Kpis
  monthly : Table
  daily : Table
  product : Table
  category : Table
  location : Table
deriving DecidableEq, Repr

/-- Lines 156-157: the Monthly table — `safe_group`, rename, then an
*unguarded* `sort_values("month")` which raises `KeyError("month")` on
the empty fallback frame. -/
def monthlyTable (t : Table) : Except String Table :=
  sort_values (renameCols [("sale_amt", "total_sales"), ("qty", "units")]
    (safe_group t "month" ["sale_amt", "qty"])) "month" false

/-- Lines 159-160: the Daily table — `safe_group`, rename, then an
*unguarded* `sort_values("day")`. -/
def dailyTable (t : Table) : Except String Table :=
  sort_values (renameCols [("sale_amt", "total_sales")]
    (safe_group t "day" ["sale_amt"])) "day" false

/-- Lines 162-172: the Product / Category / Location tables — the rename
and the descending `sort_values("total_sales")` run only under
`if not <table>.empty`, so the empty fallback frame passes through. -/
def rankedTable (t : Table) (key : String) (aggs : List String)
    (m : List (String × String)) : Except String Table :=
  if (safe_group t key aggs).rows.isEmpty then .ok (safe_group t key aggs)
  else sort_values (renameCols m (safe_group t key aggs)) "total_sales" true

/-- Lines 153-154 and 174-185: the six scalar KPIs (all but `top_product`
read the input table directly; `top_product` is `iloc[0]["product"]` of
the ranked Product table). -/
def kpisOf (t : Table) (product : Table) : Kpis :=
  let total_sales : ℚ := if "sale_amt" ∈ t.cols then colSum t "sale_amt" else 0
  let total_transactions := t.rows.length
  let avg_ticket : ℚ := if total_transactions ≠ 0 then total_sales / (total_transactions : ℚ) else 0
  let top_product : Option Value :=
    match product.rows with
    | [] => none
    | r :: _ => some (getCell product.cols r "product")
  let unique_products := if "product" ∈ t.cols then nunique (getColVals t "product") else 0
  let total_units : ℤ := if "qty" ∈ t.cols then truncQ (colSum t "qty") else 0
  ⟨total_sales, total_transactions, avg_ticket, unique_products, top_product, total_units⟩

/-- `compute_aggregates` (lines 146-191).  The `Except` layer carries the
pandas exceptions that can escape the function: the `sort_values` calls
for the Monthly and Daily tables sit *outside* the `safe_group` guard, so
they raise `KeyError` on the empty fallback frame; the other three sorts
are guarded by `if not <table>.empty`.  The scalar KPI bindings of
lines 153-154 are pure and side-effect free; `kpisOf` evaluates them
after the grouped tables, which changes nothing observable (the source
computes them first, but a raised `KeyError` discards them anyway). -/
def compute_aggregates (t : Table) : Except String Aggregates :=
  match monthlyTable t with
  | .error e => .error e
  | .ok monthly =>
  match dailyTable t with
  | .error e => .error e
  | .ok daily =>
  match rankedTable t "product" ["sale_amt", "qty"] [("sale_amt", "total_sales"), ("qty", "units")] with
  | .error e => .error e
  | .ok product =>
  match rankedTable t "category" ["sale_amt"] [("sale_amt", "total_sales")] with
  | .error e => .error e
  | .ok category =>
  match rankedTable t "store_location" ["sale_amt"] [("sale_amt", "total_sales")] with
  | .error e => .error e
  | .ok location =>
  .ok ⟨kpisOf t product, monthly, daily, product, category, location⟩

/-! ## The built-in configuration (lines 16-37) -/

/-- `DEFAULT_CONFIG["col_map"]` (lines 21-35). -/
def defaultColMap : List (String × String) :=
  [("transaction_id", "transaction_id"),
   ("transaction_date", "date"),
   ("transaction_time", "time"),
   ("transaction_qty", "qty"),
   ("store_id", "store_id"),
   ("store_location", "store_location"),
   ("product_id", "product_id"),
   ("unit_price", "unit_price"),
   ("product_category", "category"),
   ("product_type", "subcategory"),
   ("product_detail", "product"),
   ("quantity", "qty"),
   ("price", "unit_price")]

/-- `DEFAULT_CONFIG["category_map"]` (line 36): empty. -/
def defaultCategoryMap : List (String × String) := []

/-! ## Specification-side definitions and concrete tables -/

/-- The rows of a table are pairwise ordered on the cell at index `i`
(non-strictly descending when `desc`). -/
def SortedByCol (t : Table) (i : ℕ) (desc : Bool) : Prop :=
  t.rows.Pairwise (fun r1 r2 => rowLeB i desc r1 r2 = true)

/-- Modelled from the spec: "remove exact full-row duplicates (all columns
equal), keeping the first occurrence and preserving relative order of the
remaining rows", read off as a left fold that appends each row not seen
before. -/
def keepFirst {α : Type} [DecidableEq α] (l : List α) : List α :=
  l.foldl (fun acc x => if x ∈ acc then acc else acc ++ [x]) []

/-- The spec's end-to-end scenario input: three rows with `product`,
`qty`, `unit_price` columns (the first two rows duplicated). -/
def tblSpecExample : Table :=
  ⟨["product", "qty", "unit_price"],
   [[.str "Latte", .str "2", .str "$3.50"],
    [.str "Latte", .str "2", .str "$3.50"],
    [.str "Mocha", .str "1", .str "4.00"]]⟩

/-- A cleaned-shape table with every aggregation column except `month`
and `day` (no `date` column existed upstream). -/
def tblNoMonth : Table :=
  ⟨["product", "category", "store_location", "sale_amt", "qty"],
   [[.str "Latte", .str "Coffee", .str "Astoria", .num 7, .num 2]]⟩

/-- A table whose category groups sum to A ↦ 100, B ↦ 300, C ↦ 200, with
the `month`/`day` columns the monthly and daily sorts require. -/
def tblCatSums : Table :=
  ⟨["month", "day", "category", "sale_amt", "qty"],
   [[.str "2023-01", .date 2023 1 5, .str "A", .num 100, .num 1],
    [.str "2023-01", .date 2023 1 6, .str "B", .num 300, .num 2],
    [.str "2023-02", .date 2023 2 7, .str "C", .num 200, .num 3]]⟩

/-- A table whose `qty` column sums to the non-integer 3/2. -/
def tblFracQty : Table :=
  ⟨["month", "day", "sale_amt", "qty"],
   [[.str "2023-01", .date 2023 1 5, .num 10, .num (3/2)]]⟩

/-- A one-column table whose `time` cell fails the `%H:%M:%S` pattern but
is accepted by the tolerant fallback parser. -/
def tblTimeOnly : Table := ⟨["time"], [[.str "15:30"]]⟩

/-- Placeholder aggregate value (only read when `compute_aggregates`
errored, which no claim exercises on a success path). -/
def junkAggs : Aggregates :=
  ⟨⟨0, 0, 0, 0, none, 0⟩, .empty, .empty, .empty, .empty, .empty⟩

/-- The successful result of `compute_aggregates`. -/
def okAggs (e : Except String Aggregates) : Aggregates := e.toOption.getD junkAggs

/-- Aggregates of `tblCatSums`. -/
def aggCatSums : Aggregates := okAggs (compute_aggregates tblCatSums)

/-- Aggregates of `tblFracQty`. -/
def aggFracQty : Aggregates := okAggs (compute_aggregates tblFracQty)

/-- The per-cell time semantics the spec describes: strict `%H:%M:%S`
parse first, then the tolerant parse on the cells the strict pattern
rejects, and missing only if both fail. -/
def claimTimeParse (v : Value) : Value :=
  match parseTimeV (cleanCell v) with
  | .missing =>
    match cleanCell v with
    | .str s => parseTimeTolerant s
    | _ => .missing
  | w => w

/-! ## The value order is a total preorder -/

theorem strLeB_total : ∀ a b : List Char, strLeB a b = true ∨ strLeB b a = true
  | [], _ => Or.inl rfl
  | _ :: _, [] => Or.inr rfl
  | x :: xs, y :: ys => by
    by_cases h1 : x.toNat < y.toNat
    · left; simp [strLeB, h1]
    · by_cases h2 : y.toNat < x.toNat
      · right; simp [strLeB, h2]
      · rcases strLeB_total xs ys with h | h
        · left; simp [strLeB, h1, h2, h]
        · right; simp [strLeB, h1, h2, h]

theorem strLeB_trans : ∀ {a b c : List Char},
    strLeB a b = true → strLeB b c = true → strLeB a c = true
  | [], _, _, _, _ => rfl
  | _ :: _, [], _, h1, _ => by simp [strLeB] at h1
  | _ :: _, _ :: _, [], _, h2 => by simp [strLeB] at h2
  | x :: xs, y :: ys, z :: zs, h1, h2 => by
    simp only [strLeB] at h1 h2 ⊢
    by_cases hxy : x.toNat < y.toNat
    · by_cases hyz : y.toNat < z.toNat
      · have hxz : x.toNat < z.toNat := by omega
        simp [hxz]
      · by_cases hzy : z.toNat < y.toNat
        · simp [hxy, hyz, hzy] at h2
        · have hxz : x.toNat < z.toNat := by omega
          simp [hxz]
    · by_cases hyx : y.toNat < x.toNat
      · simp [hxy, hyx] at h1
      · by_cases hyz : y.toNat < z.toNat
        · have hxz : x.toNat < z.toNat := by omega
          simp [hxz]
        · by_cases hzy : z.toNat < y.toNat
          · simp [hxy, hyz, hzy] at h2
          · have hxz : ¬ x.toNat < z.toNat := by omega
            have hzx : ¬ z.toNat < x.toNat := by omega
            simp only [if_neg hxy, if_neg hyx] at h1
            simp only [if_neg hyz, if_neg hzy] at h2
            simp only [if_neg hxz, if_neg hzx]
            exact strLeB_trans h1 h2

theorem vle_rank_le {a b : Value} (h : vle a b = true) : a.rank ≤ b.rank := by
  by_cases h1 : a.rank < b.rank
  · omega
  · by_cases h2 : b.rank < a.rank
    · simp [vle, h1, h2] at h
    · omega

theorem vle_total (a b : Value) : vle a b = true ∨ vle b a = true := by
  by_cases h1 : a.rank < b.rank
  · left; simp [vle, h1]
  · by_cases h2 : b.rank < a.rank
    · right; simp [vle, h2]
    · by_cases h3 : a.rank = 2
      · have h4 : b.rank = 2 := by omega
        rcases strLeB_total a.skey.data b.skey.data with hs | hs
        · left; simp only [vle, if_neg h1, if_neg h2, if_pos h3]; exact hs
        · right; simp only [vle, if_neg h2, if_neg h1, if_pos h4]; exact hs
      · have h4 : ¬ b.rank = 2 := by omega
        rcases le_total a.qkey b.qkey with hq | hq
        · left; simp only [vle, if_neg h1, if_neg h2, if_neg h3, decide_eq_true_eq]; exact hq
        · right; simp only [vle, if_neg h2, if_neg h1, if_neg h4, decide_eq_true_eq]; exact hq

theorem vle_trans {a b c : Value} (h1 : vle a b = true) (h2 : vle b c = true) :
    vle a c = true := by
  have r1 := vle_rank_le h1
  have r2 := vle_rank_le h2
  by_cases hac : a.rank < c.rank
  · simp [vle, hac]
  · have e1 : a.rank = b.rank := by omega
    have e2 : b.rank = c.rank := by omega
    have h3 : ¬ a.rank < b.rank := by omega
    have h4 : ¬ b.rank < a.rank := by omega
    have h5 : ¬ b.rank < c.rank := by omega
    have h6 : ¬ c.rank < b.rank := by omega
    have h7 : ¬ c.rank < a.rank := by omega
    by_cases h8 : a.rank = 2
    · have h9 : b.rank = 2 := by omega
      simp only [vle, if_neg h3, if_neg h4, if_pos h8] at h1
      simp only [vle, if_neg h5, if_neg h6, if_pos h9] at h2
      simp only [vle, if_neg hac, if_neg h7, if_pos h8]
      exact strLeB_trans h1 h2
    · have h9 : ¬ b.rank = 2 := by omega
      simp only [vle, if_neg h3, if_neg h4, if_neg h8, decide_eq_true_eq] at h1
      simp only [vle, if_neg h5, if_neg h6, if_neg h9, decide_eq_true_eq] at h2
      simp only [vle, if_neg hac, if_neg h7, if_neg h8, decide_eq_true_eq]
      exact le_trans h1 h2

theorem rowLeB_total (i : ℕ) (d : Bool) (r1 r2 : Row) :
    rowLeB i d r1 r2 = true ∨ rowLeB i d r2 r1 = true := by
  cases d
  · simpa [rowLeB] using vle_total (r1.getD i .missing) (r2.getD i .missing)
  · simpa [rowLeB] using vle_total (r2.getD i .missing) (r1.getD i .missing)

theorem rowLeB_trans (i : ℕ) (d : Bool) {r1 r2 r3 : Row} (h1 : rowLeB i d r1 r2 = true)
    (h2 : rowLeB i d r2 r3 = true) : rowLeB i d r1 r3 = true := by
  cases d
  · simp only [rowLeB, Bool.false_eq_true, if_false] at h1 h2 ⊢
    exact vle_trans h1 h2
  · simp only [rowLeB, if_true] at h1 h2 ⊢
    exact vle_trans h2 h1

theorem sort_values_ok_sorted {t : Table} {c : String} {d : Bool} {s : Table} {i : ℕ}
    (hi : colIdx? t.cols c = some i) (h : sort_values t c d = .ok s) :
    SortedByCol s i d := by
  unfold sort_values at h
  rw [hi] at h
  cases h
  haveI : IsTotal Row (fun r1 r2 => rowLeB i d r1 r2 = true) := ⟨rowLeB_total i d⟩
  haveI : IsTrans Row (fun r1 r2 => rowLeB i d r1 r2 = true) := ⟨fun _ _ _ => rowLeB_trans i d⟩
  exact List.sorted_insertionSort _ t.rows

theorem sortedByCol_nil {cols : List String} (i : ℕ) (d : Bool) :
    SortedByCol ⟨cols, []⟩ i d := List.Pairwise.nil

/-! ## Column-index and row-access lemmas -/

theorem colIdx?_lt : ∀ {cols : List String} {c : String} {i : ℕ},
    colIdx? cols c = some i → i < cols.length
  | [], _, _, h => by simp [colIdx?] at h
  | c0 :: cs, c, i, h => by
    by_cases hc : c0 = c
    · simp only [colIdx?, if_pos hc, Option.some.injEq] at h
      subst h
      simp
    · simp only [colIdx?, if_neg hc, Option.map_eq_some'] at h
      obtain ⟨j, hj, rfl⟩ := h
      have := colIdx?_lt hj
      simp
      omega

theorem colIdx?_getD : ∀ {cols : List String} {c : String} {i : ℕ},
    colIdx? cols c = some i → cols.getD i "" = c
  | [], _, _, h => by simp [colIdx?] at h
  | c0 :: cs, c, i, h => by
    by_cases hc : c0 = c
    · simp [colIdx?, hc] at h
      subst h
      simpa using hc
    · simp only [colIdx?, if_neg hc, Option.map_eq_some'] at h
      obtain ⟨j, hj, rfl⟩ := h
      simpa using colIdx?_getD hj

theorem colIdx?_eq_none : ∀ {cols : List String} {c : String},
    colIdx? cols c = none ↔ c ∉ cols
  | [], c => by simp [colIdx?]
  | c0 :: cs, c => by
    by_cases hc : c0 = c
    · simp [colIdx?, hc]
    · simp [colIdx?, hc, Option.map_eq_none', @colIdx?_eq_none cs, Ne.symm hc]

theorem exists_colIdx?_of_mem {cols : List String} {c : String} (h : c ∈ cols) :
    ∃ i, colIdx? cols c = some i := by
  cases hidx : colIdx? cols c with
  | none => exact absurd h (colIdx?_eq_none.1 hidx)
  | some i => exact ⟨i, rfl⟩

theorem colIdx?_append_left : ∀ {cols : List String} {c : String} {i : ℕ} (l : List String),
    colIdx? cols c = some i → colIdx? (cols ++ l) c = some i
  | [], _, _, _, h => by simp [colIdx?] at h
  | c0 :: cs, c, i, l, h => by
    by_cases hc : c0 = c
    · simp [colIdx?, hc] at h ⊢
      exact h
    · simp only [colIdx?, if_neg hc, Option.map_eq_some'] at h
      obtain ⟨j, hj, rfl⟩ := h
      simp only [List.cons_append, colIdx?, if_neg hc, Option.map_eq_some']
      exact ⟨j, colIdx?_append_left l hj, rfl⟩

theorem colIdx?_append_self : ∀ {cols : List String} {c : String}, c ∉ cols →
    colIdx? (cols ++ [c]) c = some cols.length
  | [], c, _ => by simp [colIdx?]
  | c0 :: cs, c, h => by
    have hc : ¬ c0 = c := fun he => h (he ▸ List.mem_cons_self c0 cs)
    have hcs : c ∉ cs := fun hm => h (List.mem_cons_of_mem c0 hm)
    show colIdx? (c0 :: (cs ++ [c])) c = some (cs.length + 1)
    simp only [colIdx?, if_neg hc]
    rw [colIdx?_append_self hcs]
    rfl

theorem colIdx?_append_none {cols : List String} {c c' : String} (h : c' ∉ cols)
    (hne : c' ≠ c) : colIdx? (cols ++ [c]) c' = none := by
  rw [colIdx?_eq_none]
  simp [h, hne]

theorem getD_map_lt (f : Value → Value) : ∀ (r : Row) (i : ℕ), i < r.length →
    (r.map f).getD i .missing = f (r.getD i .missing)
  | [], i, h => absurd h (by simp)
  | v :: vs, 0, _ => rfl
  | v :: vs, i + 1, h => by
    simpa using getD_map_lt f vs i (by simpa using h)

theorem getD_append_lt : ∀ (r : Row) (x : Value) (i : ℕ), i < r.length →
    (r ++ [x]).getD i .missing = r.getD i .missing
  | [], _, i, h => absurd h (by simp)
  | v :: vs, x, 0, _ => rfl
  | v :: vs, x, i + 1, h => by
    simpa using getD_append_lt vs x i (by simpa using h)

theorem getD_append_self : ∀ (r : Row) (x : Value),
    (r ++ [x]).getD r.length .missing = x
  | [], x => rfl
  | v :: vs, x => by simpa using getD_append_self vs x

theorem map_congr_mem {α β : Type} {f g : α → β} :
    ∀ {l : List α}, (∀ x ∈ l, f x = g x) → l.map f = l.map g
  | [], _ => rfl
  | x :: xs, h => by
    simp only [List.map_cons, h x (List.mem_cons_self x xs)]
    rw [map_congr_mem (fun y hy => h y (List.mem_cons_of_mem x hy))]

theorem map_eq_map_mem {α β : Type} {f g : α → β} :
    ∀ {l : List α}, l.map f = l.map g → ∀ x ∈ l, f x = g x
  | [], _, x, hx => absurd hx (by simp)
  | y :: ys, h, x, hx => by
    simp only [List.map_cons, List.cons.injEq] at h
    rcases List.mem_cons.1 hx with rfl | hx'
    · exact h.1
    · exact map_eq_map_mem h.2 x hx'

theorem zipWith_map_same {α β : Type} (k : β → β → β) (f g : α → β) :
    ∀ (l : List α), List.zipWith k (l.map f) (l.map g) = l.map (fun x => k (f x) (g x))
  | [] => rfl
  | x :: xs => by simpa using zipWith_map_same k f g xs

theorem zipApply_getD (c : String) (f : Value → Value) :
    ∀ (cols : List String) (r : Row) (i : ℕ), r.length = cols.length → i < cols.length →
    (zipApply cols c f r).getD i .missing =
      if cols.getD i "" = c then f (r.getD i .missing) else r.getD i .missing
  | [], _, i, _, h => absurd h (by simp)
  | c0 :: cs, [], _, hlen, _ => by simp at hlen
  | c0 :: cs, v :: vs, 0, _, _ => by
    simp [zipApply]
  | c0 :: cs, v :: vs, i + 1, hlen, hi => by
    simp only [zipApply, List.zip_cons_cons, List.map_cons, List.getD_cons_succ]
    exact zipApply_getD c f cs vs i (by simpa using hlen) (by simpa using hi)

theorem length_zipApply {cols : List String} {r : Row} (c : String) (f : Value → Value)
    (h : r.length = cols.length) : (zipApply cols c f r).length = cols.length := by
  simp [zipApply, h]

/-! ## Lemmas on the table operations -/

theorem getColVals_of_not_mem {t : Table} {c : String} (h : c ∉ t.cols) :
    getColVals t c = [] := by
  simp [getColVals, colIdx?_eq_none.2 h]

theorem getColVals_eq_map {t : Table} {c : String} (h : c ∈ t.cols) :
    getColVals t c = t.rows.map (fun r => getCell t.cols r c) := by
  obtain ⟨i, hi⟩ := exists_colIdx?_of_mem h
  simp [getColVals, getCell, hi]

theorem length_getColVals {t : Table} {c : String} (h : c ∈ t.cols) :
    (getColVals t c).length = t.rows.length := by
  rw [getColVals_eq_map h, List.length_map]

theorem cols_mapCells (t : Table) (f : Value → Value) : (t.mapCells f).cols = t.cols := rfl

theorem rows_length_mapCells (t : Table) (f : Value → Value) :
    (t.mapCells f).rows.length = t.rows.length := by simp [Table.mapCells]

theorem WF_mapCells {t : Table} (f : Value → Value) (h : t.WF) : (t.mapCells f).WF := by
  intro r hr
  simp only [Table.mapCells, List.mem_map] at hr
  obtain ⟨r0, hr0, rfl⟩ := hr
  simpa using h r0 hr0

theorem getColVals_mapCells {t : Table} (f : Value → Value) (c : String) (h : t.WF) :
    getColVals (t.mapCells f) c = (getColVals t c).map f := by
  unfold getColVals Table.mapCells
  cases hidx : colIdx? t.cols c with
  | none => simp
  | some i =>
    simp only [List.map_map]
    refine map_congr_mem fun r hr => ?_
    have hlen := h r hr
    have hlt := colIdx?_lt hidx
    simp only [Function.comp]
    exact getD_map_lt f r i (by omega)

theorem cols_mapCol (t : Table) (c : String) (f : Value → Value) :
    (t.mapCol c f).cols = t.cols := rfl

theorem rows_length_mapCol (t : Table) (c : String) (f : Value → Value) :
    (t.mapCol c f).rows.length = t.rows.length := by simp [Table.mapCol]

theorem WF_mapCol {t : Table} (c : String) (f : Value → Value) (h : t.WF) :
    (t.mapCol c f).WF := by
  intro r hr
  simp only [Table.mapCol, List.mem_map] at hr
  obtain ⟨r0, hr0, rfl⟩ := hr
  exact length_zipApply c f (h r0 hr0)

theorem getColVals_mapCol_self {t : Table} (c : String) (f : Value → Value) (h : t.WF) :
    getColVals (t.mapCol c f) c = (getColVals t c).map f := by
  unfold getColVals Table.mapCol
  cases hidx : colIdx? t.cols c with
  | none => simp
  | some i =>
    simp only [List.map_map]
    refine map_congr_mem fun r hr => ?_
    simp only [Function.comp]
    rw [zipApply_getD c f t.cols r i (h r hr) (colIdx?_lt hidx),
      if_pos (colIdx?_getD hidx)]

theorem getColVals_mapCol_ne {t : Table} {c c' : String} (f : Value → Value)
    (hne : c' ≠ c) (h : t.WF) :
    getColVals (t.mapCol c f) c' = getColVals t c' := by
  unfold getColVals Table.mapCol
  cases hidx : colIdx? t.cols c' with
  | none => simp
  | some i =>
    simp only [List.map_map]
    refine map_congr_mem fun r hr => ?_
    simp only [Function.comp]
    rw [zipApply_getD c f t.cols r i (h r hr) (colIdx?_lt hidx),
      if_neg (fun he => hne ((colIdx?_getD hidx) ▸ he))]

theorem cols_setCol_of_mem {t : Table} {c : String} (f : Row → Value) (h : c ∈ t.cols) :
    (t.setCol c f).cols = t.cols := by simp [Table.setCol, h]

theorem cols_setCol_of_not_mem {t : Table} {c : String} (f : Row → Value) (h : c ∉ t.cols) :
    (t.setCol c f).cols = t.cols ++ [c] := by simp [Table.setCol, h]

theorem mem_cols_setCol {t : Table} {c c' : String} (f : Row → Value) :
    c' ∈ (t.setCol c f).cols ↔ c' ∈ t.cols ∨ c' = c := by
  by_cases h : c ∈ t.cols
  · rw [cols_setCol_of_mem f h]
    constructor
    · exact Or.inl
    · rintro (h' | rfl)
      · exact h'
      · exact h
  · rw [cols_setCol_of_not_mem f h]
    simp

theorem rows_length_setCol (t : Table) (c : String) (f : Row → Value) :
    (t.setCol c f).rows.length = t.rows.length := by
  unfold Table.setCol
  split <;> simp

theorem WF_setCol {t : Table} (c : String) (f : Row → Value) (h : t.WF) :
    (t.setCol c f).WF := by
  unfold Table.setCol
  split
  · intro r hr
    simp only [List.mem_map] at hr
    obtain ⟨r0, hr0, rfl⟩ := hr
    simp [h r0 hr0]
  · intro r hr
    simp only [List.mem_map] at hr
    obtain ⟨r0, hr0, rfl⟩ := hr
    simp [h r0 hr0]

theorem getColVals_setCol_self {t : Table} (c : String) (f : Row → Value) (h : t.WF) :
    getColVals (t.setCol c f) c = t.rows.map f := by
  by_cases hc : c ∈ t.cols
  · obtain ⟨i, hi⟩ := exists_colIdx?_of_mem hc
    unfold getColVals Table.setCol
    rw [if_pos hc]
    simp only [hi, List.map_map]
    refine map_congr_mem fun r hr => ?_
    simp only [Function.comp]
    have : ((t.cols.zip r).map fun p => if p.1 = c then f r else p.2) =
        zipApply t.cols c (fun _ => f r) r := rfl
    rw [this, zipApply_getD c (fun _ => f r) t.cols r i (h r hr) (colIdx?_lt hi),
      if_pos (colIdx?_getD hi)]
  · unfold getColVals Table.setCol
    rw [if_neg hc]
    simp only [colIdx?_append_self hc, List.map_map]
    refine map_congr_mem fun r hr => ?_
    simp only [Function.comp]
    rw [← h r hr]
    exact getD_append_self r (f r)

theorem getColVals_setCol_ne {t : Table} {c c' : String} (f : Row → Value)
    (hne : c' ≠ c) (h : t.WF) :
    getColVals (t.setCol c f) c' = getColVals t c' := by
  by_cases hc : c ∈ t.cols
  · unfold getColVals Table.setCol
    rw [if_pos hc]
    cases hidx : colIdx? t.cols c' with
    | none => simp
    | some i =>
      simp only [List.map_map]
      refine map_congr_mem fun r hr => ?_
      simp only [Function.comp]
      have : ((t.cols.zip r).map fun p => if p.1 = c then f r else p.2) =
          zipApply t.cols c (fun _ => f r) r := rfl
      rw [this, zipApply_getD c (fun _ => f r) t.cols r i (h r hr) (colIdx?_lt hidx),
        if_neg (fun he => hne ((colIdx?_getD hidx) ▸ he))]
  · unfold getColVals Table.setCol
    rw [if_neg hc]
    cases hidx : colIdx? t.cols c' with
    | none =>
      rw [colIdx?_append_none (colIdx?_eq_none.1 hidx) hne]
    | some i =>
      rw [colIdx?_append_left [c] hidx]
      simp only [List.map_map]
      refine map_congr_mem fun r hr => ?_
      simp only [Function.comp]
      exact getD_append_lt r (f r) i (by rw [h r hr]; exact colIdx?_lt hidx)

/-! ## Deduplication lemmas -/

theorem dedupAux_sublist {α : Type} [DecidableEq α] :
    ∀ (seen l : List α), List.Sublist (dedupAux seen l) l
  | _, [] => List.Sublist.refl []
  | seen, r :: rs => by
    unfold dedupAux
    split
    · exact (dedupAux_sublist seen rs).cons r
    · exact (dedupAux_sublist (r :: seen) rs).cons₂ r

theorem length_dedupAux_le {α : Type} [DecidableEq α] (seen l : List α) :
    (dedupAux seen l).length ≤ l.length :=
  (dedupAux_sublist seen l).length_le

theorem mem_dedupAux {α : Type} [DecidableEq α] :
    ∀ {seen l : List α} {x : α}, x ∈ l → x ∉ seen → x ∈ dedupAux seen l
  | _, [], _, hx, _ => absurd hx (by simp)
  | seen, r :: rs, x, hx, hs => by
    unfold dedupAux
    split
    · rcases List.mem_cons.1 hx with rfl | hx'
      · exact absurd (by assumption) hs
      · exact mem_dedupAux hx' hs
    · rcases List.mem_cons.1 hx with rfl | hx'
      · exact List.mem_cons_self _ _
      · by_cases hxr : x = r
        · subst hxr
          exact List.mem_cons_self _ _
        · refine List.mem_cons_of_mem r (mem_dedupAux hx' fun hm => ?_)
          rcases List.mem_cons.1 hm with h' | h'
          · exact hxr h'
          · exact hs h'

theorem nodup_dedupAux {α : Type} [DecidableEq α] :
    ∀ (seen l : List α), (dedupAux seen l).Nodup ∧ ∀ x ∈ dedupAux seen l, x ∉ seen
  | _, [] => ⟨List.nodup_nil, fun _ hx => absurd hx (by simp [dedupAux])⟩
  | seen, r :: rs => by
    unfold dedupAux
    split
    · exact nodup_dedupAux seen rs
    · obtain ⟨hnd, hni⟩ := nodup_dedupAux (r :: seen) rs
      constructor
      · exact List.Nodup.cons (fun hr => (hni r hr) (List.mem_cons_self r seen)) hnd
      · intro x hx hxs
        rcases List.mem_cons.1 hx with rfl | hx'
        · exact (by assumption : ¬ x ∈ seen) hxs
        · exact hni x hx' (List.mem_cons_of_mem r hxs)

theorem dedupAux_eq_foldl {α : Type} [DecidableEq α] :
    ∀ (l seen acc : List α), (∀ x, x ∈ seen ↔ x ∈ acc) →
    acc ++ dedupAux seen l = l.foldl (fun acc x => if x ∈ acc then acc else acc ++ [x]) acc
  | [], _, acc, _ => by simp [dedupAux]
  | r :: rs, seen, acc, hiff => by
    unfold dedupAux
    by_cases hr : r ∈ seen
    · rw [if_pos hr]
      simp only [List.foldl_cons, if_pos ((hiff r).1 hr)]
      exact dedupAux_eq_foldl rs seen acc hiff
    · rw [if_neg hr]
      simp only [List.foldl_cons, if_neg (fun h => hr ((hiff r).2 h))]
      rw [← dedupAux_eq_foldl rs (r :: seen) (acc ++ [r])
        (fun x => by simp [hiff x, or_comm])]
      simp

theorem dedup_eq_keepFirst {α : Type} [DecidableEq α] (l : List α) :
    dedupAux [] l = keepFirst l := by
  have := dedupAux_eq_foldl l [] ([] : List α) (fun x => by simp)
  simpa [keepFirst] using this

theorem cols_drop_duplicates (t : Table) : t.drop_duplicates.cols = t.cols := rfl

theorem rows_drop_duplicates (t : Table) :
    t.drop_duplicates.rows = dedupAux [] t.rows := rfl

theorem cols_clean_and_enrich (cm : List (String × String)) (t : Table) :
    (clean_and_enrich cm t).cols = (cleanCore cm t).cols := by
  rw [clean_and_enrich, cols_drop_duplicates]

theorem rows_clean_and_enrich (cm : List (String × String)) (t : Table) :
    (clean_and_enrich cm t).rows = dedupAux [] (cleanCore cm t).rows := by
  rw [clean_and_enrich, rows_drop_duplicates]

/-! ## Lemmas on the cleaning steps -/

theorem cols_stepMapCol (c : String) (f : Value → Value) (t : Table) :
    (stepMapCol c f t).cols = t.cols := by
  unfold stepMapCol
  split <;> rfl

theorem rows_length_stepMapCol (c : String) (f : Value → Value) (t : Table) :
    (stepMapCol c f t).rows.length = t.rows.length := by
  unfold stepMapCol
  split
  · exact rows_length_mapCol t c f
  · rfl

theorem WF_stepMapCol (c : String) (f : Value → Value) {t : Table} (h : t.WF) :
    (stepMapCol c f t).WF := by
  unfold stepMapCol
  split
  · exact WF_mapCol c f h
  · exact h

theorem getColVals_stepMapCol_self (c : String) (f : Value → Value) {t : Table} (h : t.WF) :
    getColVals (stepMapCol c f t) c = (getColVals t c).map f := by
  unfold stepMapCol
  split
  · exact getColVals_mapCol_self c f h
  · rw [getColVals_of_not_mem (by assumption)]
    rfl

theorem getColVals_stepMapCol_ne (c : String) (f : Value → Value) {t : Table} {c' : String}
    (hne : c' ≠ c) (h : t.WF) :
    getColVals (stepMapCol c f t) c' = getColVals t c' := by
  unfold stepMapCol
  split
  · exact getColVals_mapCol_ne f hne h
  · rfl

theorem mem_cols_stepSale {t : Table} {c' : String} :
    c' ∈ (stepSale t).cols ↔
      c' ∈ t.cols ∨ (c' = "sale_amt" ∧ "qty" ∈ t.cols ∧ "unit_price" ∈ t.cols) := by
  unfold stepSale
  split
  · rw [mem_cols_setCol]
    constructor
    · rintro (h' | rfl)
      · exact Or.inl h'
      · exact Or.inr ⟨rfl, by assumption⟩
    · rintro (h' | ⟨rfl, _⟩)
      · exact Or.inl h'
      · exact Or.inr rfl
  · constructor
    · exact Or.inl
    · rintro (h' | ⟨rfl, hqp⟩)
      · exact h'
      · exact absurd hqp (by assumption)

theorem rows_length_stepSale (t : Table) :
    (stepSale t).rows.length = t.rows.length := by
  unfold stepSale
  split
  · exact rows_length_setCol t _ _
  · rfl

theorem WF_stepSale {t : Table} (h : t.WF) : (stepSale t).WF := by
  unfold stepSale
  split
  · exact WF_setCol _ _ h
  · exact h

theorem getColVals_stepSale_ne {t : Table} {c' : String} (hne : c' ≠ "sale_amt") (h : t.WF) :
    getColVals (stepSale t) c' = getColVals t c' := by
  unfold stepSale
  split
  · exact getColVals_setCol_ne _ hne h
  · rfl

theorem getColVals_stepSale_self {t : Table} (hq : "qty" ∈ t.cols)
    (hp : "unit_price" ∈ t.cols) (h : t.WF) :
    getColVals (stepSale t) "sale_amt" =
      t.rows.map (fun r => vMul (getCell t.cols r "qty") (getCell t.cols r "unit_price")) := by
  unfold stepSale
  rw [if_pos ⟨hq, hp⟩]
  exact getColVals_setCol_self _ _ h

theorem mem_cols_stepDateDerived {t : Table} {c c' : String} (f : Value → Value) :
    c' ∈ (stepDateDerived c f t).cols ↔ c' ∈ t.cols ∨ (c' = c ∧ "date" ∈ t.cols) := by
  unfold stepDateDerived
  split
  · rw [mem_cols_setCol]
    constructor
    · rintro (h' | rfl)
      · exact Or.inl h'
      · exact Or.inr ⟨rfl, by assumption⟩
    · rintro (h' | ⟨rfl, _⟩)
      · exact Or.inl h'
      · exact Or.inr rfl
  · constructor
    · exact Or.inl
    · rintro (h' | ⟨rfl, hd⟩)
      · exact h'
      · exact absurd hd (by assumption)

theorem rows_length_stepDateDerived (c : String) (f : Value → Value) (t : Table) :
    (stepDateDerived c f t).rows.length = t.rows.length := by
  unfold stepDateDerived
  split
  · exact rows_length_setCol t _ _
  · rfl

theorem WF_stepDateDerived (c : String) (f : Value → Value) {t : Table} (h : t.WF) :
    (stepDateDerived c f t).WF := by
  unfold stepDateDerived
  split
  · exact WF_setCol _ _ h
  · exact h

theorem getColVals_stepDateDerived_ne {t : Table} {c c' : String} (f : Value → Value)
    (hne : c' ≠ c) (h : t.WF) :
    getColVals (stepDateDerived c f t) c' = getColVals t c' := by
  unfold stepDateDerived
  split
  · exact getColVals_setCol_ne _ hne h
  · rfl

theorem mem_product_cols_stepProduct (t : Table) : "product" ∈ (stepProduct t).cols := by
  unfold stepProduct
  split
  · rw [cols_mapCol]
    assumption
  · split
    · exact (mem_cols_setCol _).2 (Or.inr rfl)
    · split
      · exact (mem_cols_setCol _).2 (Or.inr rfl)
      · exact (mem_cols_setCol _).2 (Or.inr rfl)

theorem mem_cols_stepProduct {t : Table} {c' : String} :
    c' ∈ (stepProduct t).cols ↔ c' ∈ t.cols ∨ c' = "product" := by
  unfold stepProduct
  split
  · rw [cols_mapCol]
    constructor
    · exact Or.inl
    · rintro (h' | rfl)
      · exact h'
      · assumption
  · split
    · exact mem_cols_setCol _
    · split
      · exact mem_cols_setCol _
      · exact mem_cols_setCol _

theorem rows_length_stepProduct (t : Table) :
    (stepProduct t).rows.length = t.rows.length := by
  unfold stepProduct
  split
  · exact rows_length_mapCol t _ _
  · split
    · exact rows_length_setCol t _ _
    · split
      · exact rows_length_setCol t _ _
      · exact rows_length_setCol t _ _

theorem WF_stepProduct {t : Table} (h : t.WF) : (stepProduct t).WF := by
  unfold stepProduct
  split
  · exact WF_mapCol _ _ h
  · split
    · exact WF_setCol _ _ h
    · split
      · exact WF_setCol _ _ h
      · exact WF_setCol _ _ h

theorem getColVals_stepProduct_ne {t : Table} {c' : String} (hne : c' ≠ "product")
    (h : t.WF) : getColVals (stepProduct t) c' = getColVals t c' := by
  unfold stepProduct
  split
  · exact getColVals_mapCol_ne _ hne h
  · split
    · exact getColVals_setCol_ne _ hne h
    · split
      · exact getColVals_setCol_ne _ hne h
      · exact getColVals_setCol_ne _ hne h

theorem getColVals_stepProduct_of_mem {t : Table} (hp : "product" ∈ t.cols) (h : t.WF) :
    getColVals (stepProduct t) "product" = (getColVals t "product").map fillUnknown := by
  unfold stepProduct
  rw [if_pos hp]
  exact getColVals_mapCol_self _ _ h

theorem getColVals_stepProduct_detail {t : Table} (hp : "product" ∉ t.cols)
    (hd : "product_detail" ∈ t.cols) (h : t.WF) :
    getColVals (stepProduct t) "product" = getColVals t "product_detail" := by
  unfold stepProduct
  rw [if_neg hp, if_pos hd, getColVals_setCol_self _ _ h, getColVals_eq_map hd]

theorem getColVals_stepProduct_id {t : Table} (hp : "product" ∉ t.cols)
    (hd : "product_detail" ∉ t.cols) (hid : "product_id" ∈ t.cols) (h : t.WF) :
    getColVals (stepProduct t) "product" = getColVals t "product_id" := by
  unfold stepProduct
  rw [if_neg hp, if_neg hd, if_pos hid, getColVals_setCol_self _ _ h, getColVals_eq_map hid]

theorem getColVals_stepProduct_const {t : Table} (hp : "product" ∉ t.cols)
    (hd : "product_detail" ∉ t.cols) (hid : "product_id" ∉ t.cols) (h : t.WF) :
    getColVals (stepProduct t) "product" =
      t.rows.map (fun _ => Value.str "UNKNOWN_PRODUCT") := by
  unfold stepProduct
  rw [if_neg hp, if_neg hd, if_neg hid]
  exact getColVals_setCol_self _ _ h

theorem cols_stepCategory (cm : List (String × String)) (t : Table) :
    (stepCategory cm t).cols = t.cols := by
  unfold stepCategory
  split <;> rfl

theorem rows_length_stepCategory (cm : List (String × String)) (t : Table) :
    (stepCategory cm t).rows.length = t.rows.length := by
  unfold stepCategory
  split
  · exact rows_length_mapCol t _ _
  · rfl

theorem WF_stepCategory (cm : List (String × String)) {t : Table} (h : t.WF) :
    (stepCategory cm t).WF := by
  unfold stepCategory
  split
  · exact WF_mapCol _ _ h
  · exact h

theorem getColVals_stepCategory_ne (cm : List (String × String)) {t : Table} {c' : String}
    (hne : c' ≠ "category") (h : t.WF) :
    getColVals (stepCategory cm t) c' = getColVals t c' := by
  unfold stepCategory
  split
  · exact getColVals_mapCol_ne _ hne h
  · rfl

/-! ## Composite lemmas on `cleanCore` -/

theorem cols_coreT5 (t : Table) : (coreT5 t).cols = t.cols := by
  rw [coreT5, cols_stepMapCol, coreT4, cols_stepMapCol, coreT3, cols_stepMapCol,
    coreT2, cols_stepMapCol, coreT1, cols_mapCells]

theorem WF_coreT1 {t : Table} (h : t.WF) : (coreT1 t).WF := WF_mapCells _ h

theorem WF_coreT2 {t : Table} (h : t.WF) : (coreT2 t).WF := WF_stepMapCol _ _ (WF_coreT1 h)

theorem WF_coreT3 {t : Table} (h : t.WF) : (coreT3 t).WF := WF_stepMapCol _ _ (WF_coreT2 h)

theorem WF_coreT4 {t : Table} (h : t.WF) : (coreT4 t).WF := WF_stepMapCol _ _ (WF_coreT3 h)

theorem WF_coreT5 {t : Table} (h : t.WF) : (coreT5 t).WF := WF_stepMapCol _ _ (WF_coreT4 h)

theorem WF_coreT6 {t : Table} (h : t.WF) : (coreT6 t).WF := WF_stepSale (WF_coreT5 h)

theorem WF_coreT7 {t : Table} (h : t.WF) : (coreT7 t).WF := WF_stepDateDerived _ _ (WF_coreT6 h)

theorem WF_coreT8 {t : Table} (h : t.WF) : (coreT8 t).WF := WF_stepDateDerived _ _ (WF_coreT7 h)

theorem WF_coreT9 {t : Table} (h : t.WF) : (coreT9 t).WF := WF_stepDateDerived _ _ (WF_coreT8 h)

theorem WF_coreT10 {t : Table} (h : t.WF) : (coreT10 t).WF := WF_stepProduct (WF_coreT9 h)

theorem WF_cleanCore (cm : List (String × String)) {t : Table} (h : t.WF) :
    (cleanCore cm t).WF := WF_stepCategory cm (WF_coreT10 h)

theorem rows_length_coreT9 (t : Table) : (coreT9 t).rows.length = t.rows.length := by
  rw [coreT9, rows_length_stepDateDerived, coreT8, rows_length_stepDateDerived,
    coreT7, rows_length_stepDateDerived, coreT6, rows_length_stepSale,
    coreT5, rows_length_stepMapCol, coreT4, rows_length_stepMapCol,
    coreT3, rows_length_stepMapCol, coreT2, rows_length_stepMapCol,
    coreT1, rows_length_mapCells]

theorem rows_length_cleanCore (cm : List (String × String)) (t : Table) :
    (cleanCore cm t).rows.length = t.rows.length := by
  rw [cleanCore, rows_length_stepCategory, coreT10, rows_length_stepProduct,
    rows_length_coreT9]

theorem mem_cols_coreT9 {t : Table} {c' : String} (h1 : c' ≠ "sale_amt") (h2 : c' ≠ "day")
    (h3 : c' ≠ "month") (h4 : c' ≠ "weekday") :
    c' ∈ (coreT9 t).cols ↔ c' ∈ t.cols := by
  rw [coreT9, mem_cols_stepDateDerived, coreT8, mem_cols_stepDateDerived,
    coreT7, mem_cols_stepDateDerived, coreT6, mem_cols_stepSale, cols_coreT5]
  simp [h1, h2, h3, h4]

theorem mem_cols_cleanCore {cm : List (String × String)} {t : Table} {c' : String}
    (h1 : c' ≠ "sale_amt") (h2 : c' ≠ "day") (h3 : c' ≠ "month") (h4 : c' ≠ "weekday")
    (h5 : c' ≠ "product") :
    c' ∈ (cleanCore cm t).cols ↔ c' ∈ t.cols := by
  rw [cleanCore, cols_stepCategory, coreT10, mem_cols_stepProduct,
    mem_cols_coreT9 h1 h2 h3 h4]
  simp [h5]

theorem mem_product_cols_cleanCore (cm : List (String × String)) (t : Table) :
    "product" ∈ (cleanCore cm t).cols := by
  rw [cleanCore, cols_stepCategory, coreT10]
  exact mem_product_cols_stepProduct _

/-- Columns not named by any cleaning statement pass through the whole
pre-dedup body with only the object-column pass applied. -/
theorem getColVals_coreT9_untouched {t : Table} {c' : String} (hwf : t.WF)
    (h1 : c' ≠ "sale_amt") (h2 : c' ≠ "day") (h3 : c' ≠ "month") (h4 : c' ≠ "weekday")
    (hu : c' ≠ "unit_price") (hq : c' ≠ "qty") (hti : c' ≠ "time") (hd : c' ≠ "date") :
    getColVals (coreT9 t) c' = (getColVals t c').map cleanCell := by
  rw [coreT9, getColVals_stepDateDerived_ne _ h4 (WF_coreT8 hwf),
    coreT8, getColVals_stepDateDerived_ne _ h3 (WF_coreT7 hwf),
    coreT7, getColVals_stepDateDerived_ne _ h2 (WF_coreT6 hwf),
    coreT6, getColVals_stepSale_ne h1 (WF_coreT5 hwf),
    coreT5, getColVals_stepMapCol_ne _ _ hu (WF_coreT4 hwf),
    coreT4, getColVals_stepMapCol_ne _ _ hq (WF_coreT3 hwf),
    coreT3, getColVals_stepMapCol_ne _ _ hti (WF_coreT2 hwf),
    coreT2, getColVals_stepMapCol_ne _ _ hd (WF_coreT1 hwf),
    coreT1, getColVals_mapCells _ _ hwf]

theorem map_const_eq_of_length {α β : Type} (k : β) :
    ∀ (l1 l2 : List α), l1.length = l2.length →
      l1.map (fun _ => k) = l2.map (fun _ => k)
  | [], [], _ => rfl
  | [], _ :: _, h => by simp at h
  | _ :: _, [], h => by simp at h
  | _ :: xs, _ :: ys, h => by
    simp only [List.map_cons, List.cons.injEq, true_and]
    exact map_const_eq_of_length k xs ys (by simpa using h)

theorem getColVals_cleanCore_eq_coreT5 {cm : List (String × String)} {t : Table}
    {c' : String} (hwf : t.WF) (h0 : c' ≠ "category") (h5 : c' ≠ "product")
    (h4 : c' ≠ "weekday") (h3 : c' ≠ "month") (h2 : c' ≠ "day") (h1 : c' ≠ "sale_amt") :
    getColVals (cleanCore cm t) c' = getColVals (coreT5 t) c' := by
  rw [cleanCore, getColVals_stepCategory_ne _ h0 (WF_coreT10 hwf),
    coreT10, getColVals_stepProduct_ne h5 (WF_coreT9 hwf),
    coreT9, getColVals_stepDateDerived_ne _ h4 (WF_coreT8 hwf),
    coreT8, getColVals_stepDateDerived_ne _ h3 (WF_coreT7 hwf),
    coreT7, getColVals_stepDateDerived_ne _ h2 (WF_coreT6 hwf),
    coreT6, getColVals_stepSale_ne h1 (WF_coreT5 hwf)]

theorem getColVals_cleanCore_sale (cm : List (String × String)) {t : Table} (hwf : t.WF)
    (hq : "qty" ∈ t.cols) (hp : "unit_price" ∈ t.cols) :
    getColVals (cleanCore cm t) "sale_amt" =
      (coreT5 t).rows.map (fun r =>
        vMul (getCell (coreT5 t).cols r "qty") (getCell (coreT5 t).cols r "unit_price")) := by
  rw [cleanCore, getColVals_stepCategory_ne _ (by decide) (WF_coreT10 hwf),
    coreT10, getColVals_stepProduct_ne (by decide) (WF_coreT9 hwf),
    coreT9, getColVals_stepDateDerived_ne _ (by decide) (WF_coreT8 hwf),
    coreT8, getColVals_stepDateDerived_ne _ (by decide) (WF_coreT7 hwf),
    coreT7, getColVals_stepDateDerived_ne _ (by decide) (WF_coreT6 hwf),
    coreT6]
  exact getColVals_stepSale_self (by rw [cols_coreT5]; exact hq)
    (by rw [cols_coreT5]; exact hp) (WF_coreT5 hwf)

/-! ## Inversion lemmas on `compute_aggregates` -/

theorem cols_renameCols (m : List (String × String)) (t : Table) :
    (renameCols m t).cols =
      t.cols.map (fun c => match m.lookup c with | some v => v | none => c) := rfl

theorem safe_group_shape (t : Table) (key : String) (aggs : List String) :
    safe_group t key aggs = Table.empty ∨ (safe_group t key aggs).cols = key :: aggs := by
  unfold safe_group
  split
  · right; rfl
  · left; rfl

theorem monthlyTable_ok_sorted {t m : Table} (h : monthlyTable t = .ok m) :
    SortedByCol m 0 false := by
  unfold monthlyTable at h
  rcases safe_group_shape t "month" ["sale_amt", "qty"] with hsg | hsg
  · rw [hsg] at h
    exact absurd h (by simp [renameCols, sort_values, Table.empty, colIdx?])
  · have hcols : (renameCols [("sale_amt", "total_sales"), ("qty", "units")]
        (safe_group t "month" ["sale_amt", "qty"])).cols = ["month", "total_sales", "units"] := by
      rw [cols_renameCols, hsg]
      rfl
    exact sort_values_ok_sorted (by rw [hcols]; rfl) h

theorem dailyTable_ok_sorted {t m : Table} (h : dailyTable t = .ok m) :
    SortedByCol m 0 false := by
  unfold dailyTable at h
  rcases safe_group_shape t "day" ["sale_amt"] with hsg | hsg
  · rw [hsg] at h
    exact absurd h (by simp [renameCols, sort_values, Table.empty, colIdx?])
  · have hcols : (renameCols [("sale_amt", "total_sales")]
        (safe_group t "day" ["sale_amt"])).cols = ["day", "total_sales"] := by
      rw [cols_renameCols, hsg]
      rfl
    exact sort_values_ok_sorted (by rw [hcols]; rfl) h

theorem rankedTable_ok_sorted {t s : Table} {key : String} {aggs : List String}
    {m : List (String × String)}
    (hidx : ∀ g : Table, g.cols = key :: aggs →
      colIdx? (renameCols m g).cols "total_sales" = some 1)
    (h : rankedTable t key aggs m = .ok s) :
    SortedByCol s 1 true := by
  unfold rankedTable at h
  split at h
  · cases h
    have hr : (safe_group t key aggs).rows = [] := by
      rw [← List.isEmpty_iff]
      assumption
    unfold SortedByCol
    rw [hr]
    exact List.Pairwise.nil
  · rename_i hne
    rcases safe_group_shape t key aggs with hsg | hsg
    · exact absurd (by rw [hsg]; rfl) hne
    · exact sort_values_ok_sorted (hidx _ hsg) h

theorem kpis_of_ok {t : Table} {a : Aggregates} (h : compute_aggregates t = .ok a) :
    a.kpis.total_units = (if "qty" ∈ t.cols then truncQ (colSum t "qty") else 0) ∧
    a.kpis.unique_products = (if "product" ∈ t.cols then nunique (getColVals t "product") else 0) ∧
    a.kpis.total_sales = (if "sale_amt" ∈ t.cols then colSum t "sale_amt" else 0) ∧
    a.kpis.total_transactions = t.rows.length := by
  unfold compute_aggregates at h
  split at h
  · exact absurd h (by simp)
  split at h
  · exact absurd h (by simp)
  split at h
  · exact absurd h (by simp)
  split at h
  · exact absurd h (by simp)
  split at h
  · exact absurd h (by simp)
  cases h
  exact ⟨rfl, rfl, rfl, rfl⟩

theorem tables_of_ok {t : Table} {a : Aggregates} (h : compute_aggregates t = .ok a) :
    monthlyTable t = .ok a.monthly ∧ dailyTable t = .ok a.daily ∧
    rankedTable t "product" ["sale_amt", "qty"]
      [("sale_amt", "total_sales"), ("qty", "units")] = .ok a.product ∧
    rankedTable t "category" ["sale_amt"] [("sale_amt", "total_sales")] = .ok a.category ∧
    rankedTable t "store_location" ["sale_amt"] [("sale_amt", "total_sales")] = .ok a.location := by
  unfold compute_aggregates at h
  split at h
  · exact absurd h (by simp)
  split at h
  · exact absurd h (by simp)
  split at h
  · exact absurd h (by simp)
  split at h
  · exact absurd h (by simp)
  split at h
  · exact absurd h (by simp)
  cases h
  refine ⟨by assumption, by assumption, by assumption, by assumption, by assumption⟩

/-! ## The claims -/

/-- C1: the claim says `compute_aggregates` never raises, and that each
grouped table whose dimension or measure column is absent degrades to an
empty table.  The code violates this: the Monthly (and Daily)
`sort_values` calls sit outside the `safe_group` guard, so on a table
with no `month` column the empty fallback frame is sorted on the missing
key and `KeyError("month")` escapes.  This theorem evaluates the
embedding at such a table. -/
theorem spec_c1_aggregator_raises_on_missing_month :
    compute_aggregates tblNoMonth = .error "month" := by decide

/-- C2: the spec's end-to-end scenario.  Cleaning behaves exactly as
claimed (two rows, Latte 2 × 3.50 = 7.00 and Mocha 1 × 4.00 = 4.00, and
the sale amounts sum to 11.00 over 2 transactions), but the KPI set is
never produced: the input has no `date` column, so `compute_aggregates`
raises `KeyError("month")` at the unguarded Monthly sort instead of
returning the claimed KPIs. -/
theorem spec_c2_end_to_end :
    clean_and_enrich [] tblSpecExample =
      ⟨["product", "qty", "unit_price", "sale_amt"],
       [[.str "Latte", .num 2, .num (7/2), .num 7],
        [.str "Mocha", .num 1, .num 4, .num 4]]⟩ ∧
    colSum (clean_and_enrich [] tblSpecExample) "sale_amt" = 11 ∧
    (clean_and_enrich [] tblSpecExample).rows.length = 2 ∧
    compute_aggregates (clean_and_enrich [] tblSpecExample) = .error "month" :=
  ⟨by decide, by decide, by decide, by decide⟩

/-- C3: in every successful aggregator output the Monthly table is
ascending in the `month` key (column 0), the Daily table ascending in the
`day` key (column 0), and the Product, Category and Location tables
non-strictly descending in the summed `total_sales` column (column 1);
and on the concrete input whose category sums are A ↦ 100, B ↦ 300,
C ↦ 200 the Category table reads B(300), C(200), A(100). -/
theorem spec_c3_sort_orders :
    (∀ (t : Table) (a : Aggregates), compute_aggregates t = .ok a →
      SortedByCol a.monthly 0 false ∧ SortedByCol a.daily 0 false ∧
      SortedByCol a.product 1 true ∧ SortedByCol a.category 1 true ∧
      SortedByCol a.location 1 true) ∧
    aggCatSums.category.rows =
      [[.str "B", .num 300], [.str "C", .num 200], [.str "A", .num 100]] := by
  constructor
  · intro t a h
    obtain ⟨hm, hd, hp, hc, hl⟩ := tables_of_ok h
    refine ⟨monthlyTable_ok_sorted hm, dailyTable_ok_sorted hd,
      rankedTable_ok_sorted ?_ hp, rankedTable_ok_sorted ?_ hc, rankedTable_ok_sorted ?_ hl⟩
    · intro g hg
      rw [cols_renameCols, hg]
      decide
    · intro g hg
      rw [cols_renameCols, hg]
      decide
    · intro g hg
      rw [cols_renameCols, hg]
      decide
  · decide

theorem spec_c3_sort_orders_witness : SortedByCol aggCatSums.category 1 true := by
  have h : compute_aggregates tblCatSums = .ok aggCatSums := by decide
  exact (spec_c3_sort_orders.1 tblCatSums aggCatSums h).2.2.2.1

/-- C4 (counterexample): the claim reads the `try/except` of lines
117-121 as a per-cell fallback — strict `%H:%M:%S` first, tolerant parse
on each cell the pattern rejects, then missing.  False: the strict pass
uses `errors="coerce"`, which never raises for a bad cell, so the tolerant
fallback is unreachable and the cell `"15:30"` (which the tolerant parser
would read as 15:30:00) simply becomes missing. -/
theorem spec_c4_counterexample :
    ¬ (∀ (cm : List (String × String)) (t : Table), t.WF →
        getColVals (clean_and_enrich cm t) "time" =
          (getColVals t "time").map claimTimeParse) := by
  intro hcl
  have h := hcl [] tblTimeOnly (by decide)
  exact absurd h (by decide)

/-- C4 (amended): every cell of the `time` column goes through the
object-column cleaning and then the strict `%H:%M:%S` coercion only; a
cell the pattern rejects is missing, with the row retained (row
retention is `spec_c7_row_preservation`); the general-purpose fallback of
line 121 never runs for per-cell parse failures. -/
theorem spec_c4_amended (cm : List (String × String)) (t : Table) (hwf : t.WF) :
    getColVals (cleanCore cm t) "time" =
      (getColVals t "time").map (fun v => parseTimeV (cleanCell v)) := by
  rw [getColVals_cleanCore_eq_coreT5 hwf (by decide) (by decide) (by decide) (by decide)
      (by decide) (by decide),
    coreT5, getColVals_stepMapCol_ne _ _ (by decide) (WF_coreT4 hwf),
    coreT4, getColVals_stepMapCol_ne _ _ (by decide) (WF_coreT3 hwf),
    coreT3, getColVals_stepMapCol_self _ _ (WF_coreT2 hwf),
    coreT2, getColVals_stepMapCol_ne _ _ (by decide) (WF_coreT1 hwf),
    coreT1, getColVals_mapCells _ _ hwf, List.map_map]
  rfl

theorem spec_c4_amended_witness :
    getColVals (cleanCore [] tblTimeOnly) "time" = [Value.missing] := by
  rw [spec_c4_amended [] tblTimeOnly (by decide)]
  decide

/-- C5: `normalize_columns` keeps the rows (hence row count and cell
values) and renames every column independently; a (trimmed) name resolves
by exact match in the mapping, then by case-insensitive match, then by
the lower-case/underscore fallback.  Determinism is immediate since the
embedding is a function of the mapping and the name. -/
theorem spec_c5_normalize_columns (cm : List (String × String)) (t : Table) :
    (normalize_columns cm t).rows = t.rows ∧
    (normalize_columns cm t).cols.length = t.cols.length ∧
    (normalize_columns cm t).cols = t.cols.map (canonName cm) ∧
    (∀ c v, dictLookup cm (pyStrip c) = some v → canonName cm c = v) ∧
    (∀ c v, dictLookup cm (pyStrip c) = none →
      dictLookup (cm.map (fun p => (pyLower p.1, p.2))) (pyLower (pyStrip c)) = some v →
      canonName cm c = v) ∧
    (∀ c, dictLookup cm (pyStrip c) = none →
      dictLookup (cm.map (fun p => (pyLower p.1, p.2))) (pyLower (pyStrip c)) = none →
      canonName cm c = pyUnderscore (pyLower (pyStrip c))) := by
  refine ⟨rfl, by simp [normalize_columns], rfl, ?_, ?_, ?_⟩
  · intro c v h
    simp [canonName, h]
  · intro c v h1 h2
    simp [canonName, h1, h2]
  · intro c h1 h2
    simp [canonName, h1, h2]

theorem spec_c5_normalize_columns_witness :
    canonName defaultColMap "  Transaction_Date " = "date" ∧
    (normalize_columns defaultColMap ⟨["quantity"], [[Value.num 2]]⟩).rows =
      [[Value.num 2]] := by
  constructor
  · exact (spec_c5_normalize_columns defaultColMap Table.empty).2.2.2.2.1
      "  Transaction_Date " "date" (by decide) (by decide)
  · rw [(spec_c5_normalize_columns defaultColMap ⟨["quantity"], [[Value.num 2]]⟩).1]

/-- C6 (counterexample): normalization under the default mapping is not
idempotent.  The raw column `"Transaction Date"` is unmapped, so the
fallback produces `"transaction_date"` — which *is* a source key of the
mapping, so a second normalization renames it again, to `"date"`. -/
theorem spec_c6_counterexample :
    normalize_columns defaultColMap
        (normalize_columns defaultColMap ⟨["Transaction Date"], []⟩) ≠
      normalize_columns defaultColMap ⟨["Transaction Date"], []⟩ := by decide

/-- C6 (amended): every canonical target name of the default mapping maps
to itself, so normalization is a no-op — and hence idempotent — on tables
whose columns are canonical names; full idempotence fails only because a
fallback-produced name can collide with a source key of the mapping
(the counterexample `"Transaction Date" ↦ "transaction_date" ↦ "date"`). -/
theorem spec_c6_amended :
    (∀ c ∈ defaultColMap.map Prod.snd, canonName defaultColMap c = c) ∧
    (∀ t : Table, (∀ c ∈ t.cols, c ∈ defaultColMap.map Prod.snd) →
      normalize_columns defaultColMap t = t) := by
  have h1 : ∀ c ∈ defaultColMap.map Prod.snd, canonName defaultColMap c = c := by decide
  refine ⟨h1, fun t ht => ?_⟩
  have h2 : t.cols.map (canonName defaultColMap) = t.cols := by
    have h3 := @map_congr_mem String String (canonName defaultColMap) id t.cols
      (fun c hc => h1 c (ht c hc))
    simpa using h3
  cases t with
  | mk cols rows =>
    simp only [normalize_columns] at *
    rw [h2]

theorem spec_c6_amended_witness :
    normalize_columns defaultColMap ⟨["date", "qty", "product"], []⟩ =
      ⟨["date", "qty", "product"], []⟩ :=
  spec_c6_amended.2 _ (by decide)

/-- C7: cleaning never drops a row for unparseable content — the whole
pre-dedup body preserves the row count exactly — and the only reduction
is the final exact-duplicate removal, which keeps the first occurrence of
each duplicate group (the left-fold `keepFirst`), is a sublist of the
enriched rows (so relative order is preserved), and leaves no duplicate
rows. -/
theorem spec_c7_row_preservation (cm : List (String × String)) (t : Table) :
    (clean_and_enrich cm t).rows.length ≤ t.rows.length ∧
    (cleanCore cm t).rows.length = t.rows.length ∧
    (clean_and_enrich cm t).rows = keepFirst (cleanCore cm t).rows ∧
    List.Sublist (clean_and_enrich cm t).rows (cleanCore cm t).rows ∧
    (clean_and_enrich cm t).rows.Nodup := by
  have hrows := rows_clean_and_enrich cm t
  refine ⟨?_, rows_length_cleanCore cm t, ?_, ?_, ?_⟩
  · rw [hrows]
    exact le_trans (length_dedupAux_le [] _) (le_of_eq (rows_length_cleanCore cm t))
  · rw [hrows]
    exact dedup_eq_keepFirst _
  · rw [hrows]
    exact dedupAux_sublist [] _
  · rw [hrows]
    exact (nodup_dedupAux [] _).1

/-- C8: the derived `sale_amt` column exists in the cleaned output
exactly when both operand columns were present (or the input already
carried a `sale_amt` column, which the derivation then overwrites); in
every output row the `sale_amt` cell is the `vMul` of that row's `qty`
and `unit_price` cells, where `vMul` sends a missing operand to missing
(never zero) and multiplies two numbers. -/
theorem spec_c8_sale_amt (cm : List (String × String)) (t : Table) (hwf : t.WF) :
    ("sale_amt" ∈ (clean_and_enrich cm t).cols ↔
      ("qty" ∈ t.cols ∧ "unit_price" ∈ t.cols) ∨ "sale_amt" ∈ t.cols) ∧
    (("qty" ∈ t.cols ∧ "unit_price" ∈ t.cols) →
      ∀ r ∈ (clean_and_enrich cm t).rows,
        getCell (clean_and_enrich cm t).cols r "sale_amt" =
          vMul (getCell (clean_and_enrich cm t).cols r "qty")
            (getCell (clean_and_enrich cm t).cols r "unit_price")) ∧
    (∀ v, vMul Value.missing v = Value.missing) ∧
    (∀ v, vMul v Value.missing = Value.missing) ∧
    (∀ x y : ℚ, vMul (Value.num x) (Value.num y) = Value.num (x * y)) := by
  rw [cols_clean_and_enrich, rows_clean_and_enrich]
  have hmem : "sale_amt" ∈ (cleanCore cm t).cols ↔
      ("qty" ∈ t.cols ∧ "unit_price" ∈ t.cols) ∨ "sale_amt" ∈ t.cols := by
    rw [cleanCore, cols_stepCategory, coreT10, mem_cols_stepProduct,
      coreT9, mem_cols_stepDateDerived, coreT8, mem_cols_stepDateDerived,
      coreT7, mem_cols_stepDateDerived, coreT6, mem_cols_stepSale, cols_coreT5]
    simp
    tauto
  refine ⟨hmem, ?_, fun v => by cases v <;> rfl, fun v => by cases v <;> rfl,
    fun x y => rfl⟩
  rintro ⟨hq, hp⟩ r hr
  have hq5 : "qty" ∈ (coreT5 t).cols := by rw [cols_coreT5]; exact hq
  have hp5 : "unit_price" ∈ (coreT5 t).cols := by rw [cols_coreT5]; exact hp
  have hsmem : "sale_amt" ∈ (cleanCore cm t).cols := hmem.2 (Or.inl ⟨hq, hp⟩)
  have hqmem : "qty" ∈ (cleanCore cm t).cols :=
    (mem_cols_cleanCore (by decide) (by decide) (by decide) (by decide) (by decide)).2 hq
  have hpmem : "unit_price" ∈ (cleanCore cm t).cols :=
    (mem_cols_cleanCore (by decide) (by decide) (by decide) (by decide) (by decide)).2 hp
  have hcol : getColVals (cleanCore cm t) "sale_amt" =
      List.zipWith vMul (getColVals (cleanCore cm t) "qty")
        (getColVals (cleanCore cm t) "unit_price") := by
    rw [getColVals_cleanCore_sale cm hwf hq hp,
      getColVals_cleanCore_eq_coreT5 hwf (by decide) (by decide) (by decide) (by decide)
        (by decide) (by decide),
      getColVals_cleanCore_eq_coreT5 hwf (by decide) (by decide) (by decide) (by decide)
        (by decide) (by decide),
      getColVals_eq_map hq5, getColVals_eq_map hp5, zipWith_map_same]
  rw [getColVals_eq_map hsmem, getColVals_eq_map hqmem, getColVals_eq_map hpmem,
    zipWith_map_same] at hcol
  have hr' : r ∈ (cleanCore cm t).rows := (dedupAux_sublist [] _).subset hr
  exact map_eq_map_mem hcol r hr'

theorem spec_c8_sale_amt_witness :
    "sale_amt" ∈ (clean_and_enrich [] tblSpecExample).cols :=
  (spec_c8_sale_amt [] tblSpecExample (by decide)).1.2 (Or.inl ⟨by decide, by decide⟩)

/-- C9 (counterexample): `total_units` is `int(df["qty"].sum())`, and
`int()` truncates; with a qty column summing to 3/2 the KPI is 1, not the
sum — refuting "total_units equals the sum of the non-missing qty
values". -/
theorem spec_c9_counterexample :
    compute_aggregates tblFracQty = .ok aggFracQty ∧
    aggFracQty.kpis.total_units = 1 ∧
    sumNums (getColVals tblFracQty "qty") = 3 / 2 ∧
    ((1 : ℚ) ≠ 3 / 2) :=
  ⟨by decide, by decide, by decide, by decide⟩

/-- C9 (amended): `total_units` equals the *truncation toward zero* of
the sum of the non-missing `qty` values (so it equals the sum itself
whenever the sum is an integer), and equals 0 when the `qty` column is
absent.  Missing cells are excluded by the `filterMap` inside
`sumNums`, not counted as zero. -/
theorem spec_c9_amended (t : Table) (a : Aggregates)
    (h : compute_aggregates t = .ok a) :
    ("qty" ∈ t.cols → a.kpis.total_units = truncQ (sumNums (getColVals t "qty"))) ∧
    ("qty" ∉ t.cols → a.kpis.total_units = 0) ∧
    (∀ q : ℚ, truncQ q = if 0 ≤ q then ⌊q⌋ else ⌈q⌉) := by
  have hk := (kpis_of_ok h).1
  refine ⟨fun hq => ?_, fun hq => ?_, fun q => rfl⟩
  · rw [hk, if_pos hq]
    rfl
  · rw [hk, if_neg hq]

theorem spec_c9_amended_witness :
    aggFracQty.kpis.total_units = truncQ (sumNums (getColVals tblFracQty "qty")) :=
  (spec_c9_amended tblFracQty aggFracQty (by decide)).1 (by decide)

/-- C10: the cleaned table always carries a `product` column: when the
input had one, its cells are cleaned then missing-filled with
`"UNKNOWN_PRODUCT"`; otherwise the column is copied from
`product_detail`, else `product_id` (cleaned but *not* missing-filled),
else the constant `"UNKNOWN_PRODUCT"`.  Consequently, on any successful
aggregation of a table with a `product` column — in particular any
pipeline output — `unique_products` is the distinct-count branch, never
the column-absent `0` branch. -/
theorem spec_c10_product_column (cm : List (String × String)) (t : Table) (hwf : t.WF) :
    "product" ∈ (clean_and_enrich cm t).cols ∧
    ("product" ∈ t.cols →
      getColVals (cleanCore cm t) "product" =
        (getColVals t "product").map (fun v => fillUnknown (cleanCell v))) ∧
    ("product" ∉ t.cols → "product_detail" ∈ t.cols →
      getColVals (cleanCore cm t) "product" =
        (getColVals t "product_detail").map cleanCell) ∧
    ("product" ∉ t.cols → "product_detail" ∉ t.cols → "product_id" ∈ t.cols →
      getColVals (cleanCore cm t) "product" =
        (getColVals t "product_id").map cleanCell) ∧
    ("product" ∉ t.cols → "product_detail" ∉ t.cols → "product_id" ∉ t.cols →
      getColVals (cleanCore cm t) "product" =
        t.rows.map (fun _ => Value.str "UNKNOWN_PRODUCT")) ∧
    (∀ (t' : Table) (a : Aggregates), "product" ∈ t'.cols →
      compute_aggregates t' = .ok a →
      a.kpis.unique_products = nunique (getColVals t' "product")) := by
  rw [cols_clean_and_enrich]
  refine ⟨mem_product_cols_cleanCore cm t, ?_, ?_, ?_, ?_, ?_⟩
  · intro hp
    have hp9 : "product" ∈ (coreT9 t).cols :=
      (mem_cols_coreT9 (by decide) (by decide) (by decide) (by decide)).2 hp
    rw [cleanCore, getColVals_stepCategory_ne _ (by decide) (WF_coreT10 hwf),
      coreT10, getColVals_stepProduct_of_mem hp9 (WF_coreT9 hwf),
      getColVals_coreT9_untouched hwf (by decide) (by decide) (by decide) (by decide)
        (by decide) (by decide) (by decide) (by decide), List.map_map]
    rfl
  · intro hp hd
    have hp9 : "product" ∉ (coreT9 t).cols := fun hm =>
      hp ((mem_cols_coreT9 (by decide) (by decide) (by decide) (by decide)).1 hm)
    have hd9 : "product_detail" ∈ (coreT9 t).cols :=
      (mem_cols_coreT9 (by decide) (by decide) (by decide) (by decide)).2 hd
    rw [cleanCore, getColVals_stepCategory_ne _ (by decide) (WF_coreT10 hwf),
      coreT10, getColVals_stepProduct_detail hp9 hd9 (WF_coreT9 hwf),
      getColVals_coreT9_untouched hwf (by decide) (by decide) (by decide) (by decide)
        (by decide) (by decide) (by decide) (by decide)]
  · intro hp hd hid
    have hp9 : "product" ∉ (coreT9 t).cols := fun hm =>
      hp ((mem_cols_coreT9 (by decide) (by decide) (by decide) (by decide)).1 hm)
    have hd9 : "product_detail" ∉ (coreT9 t).cols := fun hm =>
      hd ((mem_cols_coreT9 (by decide) (by decide) (by decide) (by decide)).1 hm)
    have hid9 : "product_id" ∈ (coreT9 t).cols :=
      (mem_cols_coreT9 (by decide) (by decide) (by decide) (by decide)).2 hid
    rw [cleanCore, getColVals_stepCategory_ne _ (by decide) (WF_coreT10 hwf),
      coreT10, getColVals_stepProduct_id hp9 hd9 hid9 (WF_coreT9 hwf),
      getColVals_coreT9_untouched hwf (by decide) (by decide) (by decide) (by decide)
        (by decide) (by decide) (by decide) (by decide)]
  · intro hp hd hid
    have hp9 : "product" ∉ (coreT9 t).cols := fun hm =>
      hp ((mem_cols_coreT9 (by decide) (by decide) (by decide) (by decide)).1 hm)
    have hd9 : "product_detail" ∉ (coreT9 t).cols := fun hm =>
      hd ((mem_cols_coreT9 (by decide) (by decide) (by decide) (by decide)).1 hm)
    have hid9 : "product_id" ∉ (coreT9 t).cols := fun hm =>
      hid ((mem_cols_coreT9 (by decide) (by decide) (by decide) (by decide)).1 hm)
    rw [cleanCore, getColVals_stepCategory_ne _ (by decide) (WF_coreT10 hwf),
      coreT10, getColVals_stepProduct_const hp9 hd9 hid9 (WF_coreT9 hwf)]
    exact map_const_eq_of_length _ _ _ (rows_length_coreT9 t)
  · intro t' a hp' h
    rw [(kpis_of_ok h).2.1, if_pos hp']

theorem spec_c10_product_column_witness :
    getColVals (cleanCore [] tblSpecExample) "product" =
      [Value.str "Latte", Value.str "Latte", Value.str "Mocha"] := by
  rw [(spec_c10_product_column [] tblSpecExample (by decide)).2.1 (by decide)]
  decide

end RunEtl
